import Mathlib

/-!
Verification of the mandelbrot renderer and the quickreplace utility
(repository `alanhou/rust`, sources
`02/mandelbrot/src/main.rs` and `02/quickreplace/src/main.rs`).

The mandelbrot program is embedded shallowly: `f64` complex arithmetic is
modelled exactly over `ℚ` (the claims about `pixel_to_point` are stated by the
spec as exact over exact real/rational arithmetic), buffers are `List Nat`
of byte values, the `assert!` in `render` is modelled by returning `none`,
and the concurrent band dispatch of `main` is modelled by chunking the
buffer, rendering every band, and writing every band back at its offset.
-/

namespace Mandelbrot

/-- `num::Complex<f64>`, modelled exactly over `ℚ`. -/
structure Complex where
  re : ℚ
  im : ℚ
deriving DecidableEq, Repr

instance : Add Complex := ⟨fun a b => ⟨a.re + b.re, a.im + b.im⟩⟩

/-- Complex multiplication, as implemented by the `num` crate. -/
instance : Mul Complex := ⟨fun a b => ⟨a.re * b.re - a.im * b.im, a.re * b.im + a.im * b.re⟩⟩

/-- `Complex::norm_sqr`: squared magnitude `re² + im²`. -/
def Complex.norm_sqr (z : Complex) : ℚ := z.re * z.re + z.im * z.im

/-- The loop body of `escape_time`: `z = z * z + c`. -/
def zStep (c z : Complex) : Complex := z * z + c

/-- The iterates of `z = z * z + c` starting from `z = 0 + 0i`. -/
def zIter (c : Complex) (n : Nat) : Complex := (zStep c)^[n] ⟨0, 0⟩

/-- The `for i in 0..limit` loop of `escape_time`, with `fuel` iterations
remaining, current value `z` and current loop index `i`:
before each step it checks `z.norm_sqr() > 4.0` and returns `Some(i)`;
otherwise it performs `z = z * z + c`. -/
def escapeGo (c z : Complex) (i fuel : Nat) : Option Nat :=
  match fuel with
  | 0 => none
  | fuel' + 1 => if 4 < z.norm_sqr then some i else escapeGo c (zStep c z) (i + 1) fuel'

/-- `escape_time(c, limit)` from `mandelbrot/src/main.rs`. -/
def escape_time (c : Complex) (limit : Nat) : Option Nat :=
  escapeGo c ⟨0, 0⟩ 0 limit

/-- `pixel_to_point(bounds, pixel, upper_left, lower_right)` from
`mandelbrot/src/main.rs`: `pixel = (column, row)`,
`re = upper_left.re + column * (lower_right.re - upper_left.re) / bounds.0`,
`im = upper_left.im - row * (upper_left.im - lower_right.im) / bounds.1`. -/
def pixel_to_point (bounds : Nat × Nat) (pixel : Nat × Nat)
    (upper_left lower_right : Complex) : Complex :=
  ⟨upper_left.re + (pixel.1 : ℚ) * (lower_right.re - upper_left.re) / (bounds.1 : ℚ),
   upper_left.im - (pixel.2 : ℚ) * (upper_left.im - lower_right.im) / (bounds.2 : ℚ)⟩

/-- The byte `render` stores for one pixel:
`match escape_time(point, 255) { None => 0, Some(count) => 255 - count }`. -/
def pixelByte (point : Complex) : Nat :=
  match escape_time point 255 with
  | none => 0
  | some count => 255 - count

/-- The buffer contents produced by `render`'s double loop
(row-major, `pixels[row * bounds.0 + column]`). -/
def renderPure (bounds : Nat × Nat) (upper_left lower_right : Complex) : List Nat :=
  (List.range bounds.2).flatMap fun row =>
    (List.range bounds.1).map fun column =>
      pixelByte (pixel_to_point bounds (column, row) upper_left lower_right)

/-- `render(pixels, bounds, upper_left, lower_right)`: asserts
`pixels.len() == bounds.0 * bounds.1` (modelled as `none` on violation)
and overwrites every entry of the buffer with its pixel byte. -/
def render (pixels : List Nat) (bounds : Nat × Nat)
    (upper_left lower_right : Complex) : Option (List Nat) :=
  if pixels.length = bounds.1 * bounds.2 then some (renderPure bounds upper_left lower_right)
  else none

/-- Fueled worker for `chunks_mut`: splits a list into consecutive chunks of
`k` elements, the last chunk possibly shorter. -/
def chunksGo (k : Nat) : Nat → List Nat → List (List Nat)
  | _, [] => []
  | 0, _ => []
  | fuel + 1, l => l.take k :: chunksGo k fuel (l.drop k)

/-- `slice::chunks_mut(k)`: consecutive chunks of `k` elements, the last
possibly shorter.  (Rust panics on `k = 0`; the dispatcher always passes
`rows_per_band * bounds.0 > 0`.) -/
def chunksMut (k : Nat) (l : List Nat) : List (List Nat) :=
  if k = 0 then [] else chunksGo k l.length l

/-- Sequences a list of `Option`s: `some` of the list of values when all
succeed, `none` when any fails (a panicking worker fails the whole render). -/
def seqOpt : List (Option (List Nat)) → Option (List (List Nat))
  | [] => some []
  | o :: os =>
    match o, seqOpt os with
    | some x, some xs => some (x :: xs)
    | _, _ => none

/-- Writing `chunk` into `buf` starting at index `off`, in place: entries
outside `[off, off + chunk.length)` are unchanged, and the buffer length is
unchanged. -/
def writeAt (buf : List Nat) (off : Nat) (chunk : List Nat) : List Nat :=
  buf.mapIdx fun i b => if off ≤ i ∧ i < off + chunk.length then chunk.getD (i - off) 0 else b

/-- The band dispatch of `main`: `rows_per_band = bounds.1 / threads + 1`,
the zero-filled buffer is split by `chunks_mut(rows_per_band * bounds.0)`,
band `i` starts at `top = rows_per_band * i`, has height `band.len() / bounds.0`,
its corners are computed by `pixel_to_point` against the full bounds and full
viewport, every band is rendered, and the results are written back at the
bands' offsets. -/
def parallelRender (threads : Nat) (bounds : Nat × Nat)
    (upper_left lower_right : Complex) : Option (List Nat) :=
  let buf0 := List.replicate (bounds.1 * bounds.2) 0
  let rows_per_band := bounds.2 / threads + 1
  let bands := chunksMut (rows_per_band * bounds.1) buf0
  let rendered := seqOpt ((bands.enumFrom 0).map fun p =>
    render p.2 (bounds.1, p.2.length / bounds.1)
      (pixel_to_point bounds (0, rows_per_band * p.1) upper_left lower_right)
      (pixel_to_point bounds (bounds.1, rows_per_band * p.1 + p.2.length / bounds.1)
        upper_left lower_right))
  rendered.map fun outs =>
    ((outs.enumFrom 0).map fun p => (rows_per_band * bounds.1 * p.1, p.2)).foldl
      (fun b q => writeAt b q.1 q.2) buf0

/-- The pixels of band `i` of the dispatch (the content its worker computes). -/
def bandPixels (threads : Nat) (bounds : Nat × Nat)
    (upper_left lower_right : Complex) (i : Nat) : List Nat :=
  let rows_per_band := bounds.2 / threads + 1
  let band := (chunksMut (rows_per_band * bounds.1)
    (List.replicate (bounds.1 * bounds.2) 0)).getD i []
  renderPure (bounds.1, band.length / bounds.1)
    (pixel_to_point bounds (0, rows_per_band * i) upper_left lower_right)
    (pixel_to_point bounds (bounds.1, rows_per_band * i + band.length / bounds.1)
      upper_left lower_right)

/-- The number of bands the dispatch creates. -/
def numBands (threads : Nat) (bounds : Nat × Nat) : Nat :=
  (chunksMut ((bounds.2 / threads + 1) * bounds.1)
    (List.replicate (bounds.1 * bounds.2) 0)).length

/-- A run of the concurrent phase under a schedule: the bands' writes to the
shared buffer land in the order given by `order` (a permutation of the band
indices).  Disjointness of the bands' byte ranges is the only thing that
makes the outcome schedule-independent. -/
def scheduledRun (threads : Nat) (bounds : Nat × Nat)
    (upper_left lower_right : Complex) (order : List Nat) : List Nat :=
  order.foldl
    (fun buf i => writeAt buf ((bounds.2 / threads + 1) * bounds.1 * i)
      (bandPixels threads bounds upper_left lower_right i))
    (List.replicate (bounds.1 * bounds.2) 0)

end Mandelbrot

namespace Quickreplace

/-- The data flow of `main` in `quickreplace/src/main.rs`, after the input
file has been read successfully into `data`.  The regex engine is an external
crate, so the `replace` function is a parameter: `main` calls it, binds its
result to the unused `_replace_data` on success, exits on failure, and then
writes `data` — the original text — to the output file.  The returned value
is the content written to the output file (`none` models the early exit). -/
def mainFlow (replaceFn : String → String → String → Option String)
    (target replacement data : String) : Option String :=
  match replaceFn target replacement data with
  | none => none
  | some _ => some data

end Quickreplace

namespace Mandelbrot

/-! ### Basic lemmas about the complex arithmetic -/

theorem Complex.add_def (a b : Complex) : a + b = ⟨a.re + b.re, a.im + b.im⟩ := rfl

theorem Complex.mul_def (a b : Complex) :
    a * b = ⟨a.re * b.re - a.im * b.im, a.re * b.im + a.im * b.re⟩ := rfl

theorem Complex.ext {a b : Complex} (hre : a.re = b.re) (him : a.im = b.im) : a = b := by
  cases a
  cases b
  cases hre
  cases him
  rfl

/-! ### Basic lemmas about the chunking of the buffer -/

theorem chunksGo_nil (k fuel : Nat) : chunksGo k fuel ([] : List Nat) = [] := by
  cases fuel <;> rfl

theorem chunksGo_eq_of_le (k : Nat) (hk : 0 < k) :
    ∀ (f1 f2 : Nat) (l : List Nat), l.length ≤ f1 → l.length ≤ f2 →
      chunksGo k f1 l = chunksGo k f2 l := by
  intro f1
  induction f1 with
  | zero =>
    intro f2 l h1 _
    have : l = [] := List.eq_nil_of_length_eq_zero (Nat.le_zero.mp h1)
    subst this
    simp [chunksGo_nil]
  | succ f1 ih =>
    intro f2 l h1 h2
    cases l with
    | nil => simp [chunksGo_nil]
    | cons a l' =>
      cases f2 with
      | zero => simp at h2
      | succ f2 =>
        show (a :: l').take k :: chunksGo k f1 ((a :: l').drop k)
            = (a :: l').take k :: chunksGo k f2 ((a :: l').drop k)
        have hd : ((a :: l').drop k).length = (a :: l').length - k := by
          simp [List.length_drop]
        have hlen : ((a :: l').drop k).length ≤ f1 := by simp at h1 hd ⊢; omega
        have hlen2 : ((a :: l').drop k).length ≤ f2 := by simp at h2 hd ⊢; omega
        rw [ih f2 ((a :: l').drop k) hlen hlen2]

theorem chunksMut_nil (k : Nat) : chunksMut k [] = [] := by
  unfold chunksMut
  split <;> simp [chunksGo_nil]

theorem chunksMut_cons (k : Nat) (hk : 0 < k) (l : List Nat) (hl : l ≠ []) :
    chunksMut k l = l.take k :: chunksMut k (l.drop k) := by
  unfold chunksMut
  rw [if_neg (by omega), if_neg (by omega)]
  cases l with
  | nil => exact absurd rfl hl
  | cons a l' =>
    show (a :: l').take k :: chunksGo k (a :: l').length.pred ((a :: l').drop k)
        = (a :: l').take k :: chunksGo k ((a :: l').drop k).length ((a :: l').drop k)
    rw [chunksGo_eq_of_le k hk _ _ _ (by simp [List.length_drop]; omega) (le_refl _)]

theorem chunksMut_getD (k : Nat) (hk : 0 < k) :
    ∀ (i : Nat) (l : List Nat), (chunksMut k l).getD i [] = (l.drop (k * i)).take k := by
  intro i
  induction i with
  | zero =>
    intro l
    by_cases hl : l = []
    · subst hl; simp [chunksMut_nil]
    · rw [chunksMut_cons k hk l hl]
      simp
  | succ i ih =>
    intro l
    by_cases hl : l = []
    · subst hl; simp [chunksMut_nil]
    · rw [chunksMut_cons k hk l hl]
      show (chunksMut k (l.drop k)).getD i [] = _
      rw [ih (l.drop k), List.drop_drop]
      have : k + k * i = k * (i + 1) := by ring
      rw [this]

theorem length_chunksMut (k : Nat) (hk : 0 < k) (l : List Nat) :
    (chunksMut k l).length = (l.length + k - 1) / k := by
  have H : ∀ (n : Nat) (l : List Nat), l.length = n →
      (chunksMut k l).length = (l.length + k - 1) / k := by
    intro n
    induction n using Nat.strong_induction_on with
    | _ n ih =>
    intro l hn
    by_cases hl : l = []
    · subst hl
      simp only [chunksMut_nil, List.length_nil]
      rw [Nat.div_eq_of_lt (by omega)]
    · rw [chunksMut_cons k hk l hl]
      have hpos : 0 < l.length := List.length_pos.mpr hl
      have hdrop : (l.drop k).length = l.length - k := by simp [List.length_drop]
      have hlt : (l.drop k).length < n := by omega
      have hrec := ih _ hlt (l.drop k) rfl
      simp only [List.length_cons, hrec, hdrop]
      by_cases hle : l.length ≤ k
      · have h1 : l.length - k = 0 := by omega
        have h3 : (l.length + k - 1) / k = 1 := Nat.div_eq_of_lt_le (by omega) (by omega)
        rw [h1, h3, Nat.div_eq_of_lt (by omega)]
      · have h2 : l.length + k - 1 = (l.length - k + k - 1) + k := by omega
        rw [h2, Nat.add_div_right _ hk]
  exact H l.length l rfl

/-- The length of the `i`-th band of a `width * height` buffer split into
chunks of `rows_per_band * width` entries. -/
theorem band_length (w h rpb : Nat) (hw : 0 < w) (hrpb : 0 < rpb)
    (l : List Nat) (hl : l.length = w * h) (i : Nat) :
    ((chunksMut (rpb * w) l).getD i []).length = w * min rpb (h - rpb * i) := by
  have hk : 0 < rpb * w := Nat.mul_pos hrpb hw
  rw [chunksMut_getD _ hk, List.length_take, List.length_drop, hl]
  have hsub : w * h - rpb * w * i = w * (h - rpb * i) := by
    rw [Nat.mul_sub_left_distrib]
    congr 1
    ring
  rw [hsub]
  rcases Nat.le_total rpb (h - rpb * i) with hab | hab
  · rw [min_eq_left hab, min_eq_left]
    · ring
    · calc rpb * w = w * rpb := by ring
        _ ≤ w * (h - rpb * i) := Nat.mul_le_mul (le_refl w) hab
  · rw [min_eq_right hab, min_eq_right]
    calc w * (h - rpb * i) ≤ w * rpb := Nat.mul_le_mul (le_refl w) hab
      _ = rpb * w := by ring

/-- Every row start `rpb * i` of a live band lies strictly below `h`. -/
theorem band_top_lt (w h rpb : Nat) (hw : 0 < w) (hrpb : 0 < rpb)
    (l : List Nat) (hl : l.length = w * h) (i : Nat)
    (hi : i < (chunksMut (rpb * w) l).length) : rpb * i < h := by
  have hk : 0 < rpb * w := Nat.mul_pos hrpb hw
  rw [length_chunksMut _ hk, hl] at hi
  have h1 : (i + 1) * (rpb * w) ≤ w * h + rpb * w - 1 :=
    (Nat.le_div_iff_mul_le hk).mp hi
  have h2 : (i + 1) * (rpb * w) = w * (rpb * i) + rpb * w := by ring
  have h3 : w * (rpb * i) < w * h := by omega
  exact (Nat.mul_lt_mul_left hw).mp h3

/-! ### Characterization of `escape_time` -/

theorem escapeGo_eq_some (c : Complex) :
    ∀ (fuel : Nat) (z : Complex) (i j : Nat),
      escapeGo c z i fuel = some j ↔
        ∃ m, m < fuel ∧ j = i + m ∧ 4 < ((zStep c)^[m] z).norm_sqr ∧
          ∀ m' < m, ¬ 4 < ((zStep c)^[m'] z).norm_sqr := by
  intro fuel
  induction fuel with
  | zero => intro z i j; simp [escapeGo]
  | succ fuel ih =>
    intro z i j
    show (if 4 < z.norm_sqr then some i else escapeGo c (zStep c z) (i + 1) fuel) = some j ↔ _
    by_cases hz : 4 < z.norm_sqr
    · rw [if_pos hz]
      simp only [Option.some_inj]
      constructor
      · rintro rfl
        exact ⟨0, Nat.succ_pos _, by omega, by simpa using hz, by omega⟩
      · rintro ⟨m, _, rfl, _, hmin⟩
        cases m with
        | zero => omega
        | succ s => exact absurd hz (hmin 0 (Nat.succ_pos _))
    · rw [if_neg hz, ih]
      constructor
      · rintro ⟨m, hm, rfl, hesc, hmin⟩
        refine ⟨m + 1, by omega, by omega, by rwa [Function.iterate_succ_apply], ?_⟩
        intro m' hm'
        cases m' with
        | zero => simpa using hz
        | succ s =>
          rw [Function.iterate_succ_apply]
          exact hmin s (by omega)
      · rintro ⟨m, hm, rfl, hesc, hmin⟩
        cases m with
        | zero => exact absurd (by simpa using hesc) hz
        | succ s =>
          refine ⟨s, by omega, by omega, by rwa [Function.iterate_succ_apply] at hesc, ?_⟩
          intro m' hm'
          rw [← Function.iterate_succ_apply]
          exact hmin (m' + 1) (by omega)

theorem escapeGo_eq_none (c : Complex) :
    ∀ (fuel : Nat) (z : Complex) (i : Nat),
      escapeGo c z i fuel = none ↔ ∀ m < fuel, ¬ 4 < ((zStep c)^[m] z).norm_sqr := by
  intro fuel
  induction fuel with
  | zero => intro z i; simp [escapeGo]
  | succ fuel ih =>
    intro z i
    show (if 4 < z.norm_sqr then some i else escapeGo c (zStep c z) (i + 1) fuel) = none ↔ _
    by_cases hz : 4 < z.norm_sqr
    · rw [if_pos hz]
      simp only [reduceCtorEq, false_iff, not_forall]
      exact ⟨0, Nat.succ_pos _, by simpa using hz⟩
    · rw [if_neg hz, ih]
      constructor
      · intro h m hm
        cases m with
        | zero => simpa using hz
        | succ s =>
          rw [Function.iterate_succ_apply]
          exact h s (by omega)
      · intro h m hm
        rw [← Function.iterate_succ_apply]
        exact h (m + 1) (by omega)

theorem escape_time_some_iff (c : Complex) (limit i : Nat) :
    escape_time c limit = some i ↔
      i < limit ∧ 4 < (zIter c i).norm_sqr ∧ ∀ j < i, (zIter c j).norm_sqr ≤ 4 := by
  rw [escape_time, escapeGo_eq_some]
  constructor
  · rintro ⟨m, hm, rfl, hesc, hmin⟩
    exact ⟨by omega, by simpa [zIter] using hesc, fun j hj => not_lt.mp (hmin j (by omega))⟩
  · rintro ⟨hi, hesc, hmin⟩
    exact ⟨i, hi, by omega, by simpa [zIter] using hesc,
      fun j hj => not_lt.mpr (hmin j (by omega))⟩

theorem escape_time_none_iff (c : Complex) (limit : Nat) :
    escape_time c limit = none ↔ ∀ j < limit, (zIter c j).norm_sqr ≤ 4 := by
  rw [escape_time, escapeGo_eq_none]
  constructor
  · intro h j hj
    exact not_lt.mp (h j hj)
  · intro h j hj
    exact not_lt.mpr (h j hj)

theorem escape_time_lt_limit {c : Complex} {limit i : Nat}
    (h : escape_time c limit = some i) : i < limit :=
  ((escape_time_some_iff c limit i).mp h).1

end Mandelbrot

namespace Mandelbrot

/-! ### Claims C3, C4: the escape-time evaluator -/

/-- C3: `escape_time` starts from `z = 0 + 0i`, iterates `z = z*z + c`, checks
`|z|² > 4` before each iteration and returns `some i` with `i` the number of
completed iterations at the moment the check fires; it returns `none` exactly
when no iterate within the limit exceeds magnitude 2. -/
theorem escape_time_spec (c : Complex) (limit i : Nat) :
    zIter c 0 = ⟨0, 0⟩ ∧
    (∀ n, zIter c (n + 1) = zIter c n * zIter c n + c) ∧
    (escape_time c limit = some i ↔
      i < limit ∧ 4 < (zIter c i).norm_sqr ∧ ∀ j < i, (zIter c j).norm_sqr ≤ 4) ∧
    (escape_time c limit = none ↔ ∀ j < limit, (zIter c j).norm_sqr ≤ 4) := by
  refine ⟨rfl, fun n => ?_, escape_time_some_iff c limit i, escape_time_none_iff c limit⟩
  rw [zIter, zIter, Function.iterate_succ_apply']
  rfl

/-- For `|c|² > 4` the first check (at `z = 0`) does not fire, one iteration
sets `z = c`, and the second check fires: the result is `some 1`, provided
the loop runs at least twice. -/
theorem escape_time_big (c : Complex) (limit : Nat) (hc : 4 < c.norm_sqr)
    (hlim : 2 ≤ limit) : escape_time c limit = some 1 := by
  obtain ⟨l, rfl⟩ : ∃ l, limit = l + 2 := ⟨limit - 2, by omega⟩
  show escapeGo c ⟨0, 0⟩ 0 (l + 2) = some 1
  have h0 : ¬ (4 : ℚ) < (Complex.mk 0 0).norm_sqr := by norm_num [Complex.norm_sqr]
  rw [escapeGo, if_neg h0]
  have hz : zStep c ⟨0, 0⟩ = c := by
    apply Complex.ext <;> simp [zStep, Complex.mul_def, Complex.add_def]
  rw [hz, escapeGo, if_pos hc]

/-- C4 counterexample: at `c = 3 + 0i` (so `|c| > 2`) and `limit = 2`,
`escape_time` returns `some 1`, not `some 0` as the claim states. -/
theorem escape_time_three_not_some_zero :
    escape_time ⟨3, 0⟩ 2 = some 1 ∧ escape_time ⟨3, 0⟩ 2 ≠ some 0 := by
  have h := escape_time_big ⟨3, 0⟩ 2 (by norm_num [Complex.norm_sqr]) (le_refl 2)
  exact ⟨h, by rw [h]; simp⟩

/-- C4 amended: for every `c` with `|c|² > 4` and every `limit ≥ 2`,
`escape_time c limit = some 1`: the divergence check before the first
iteration sees `z = 0` and does not fire, so immediate divergence is
reported at iteration index 1, not 0.  (For `limit ≤ 1` the result is
`none`.) -/
theorem escape_time_immediate_divergence (c : Complex) (limit : Nat)
    (hc : 4 < c.norm_sqr) (hlim : 2 ≤ limit) : escape_time c limit = some 1 :=
  escape_time_big c limit hc hlim

/-- Witness for C4's amended theorem at `c = 3 + 0i`, `limit = 2`. -/
theorem escape_time_immediate_divergence_witness :
    4 < (Complex.mk 3 0).norm_sqr ∧ 2 ≤ 2 ∧ escape_time ⟨3, 0⟩ 2 = some 1 :=
  ⟨by norm_num [Complex.norm_sqr], le_refl 2,
    escape_time_immediate_divergence ⟨3, 0⟩ 2 (by norm_num [Complex.norm_sqr]) (le_refl 2)⟩

/-! ### Claims C6, C7: the coordinate mapper -/

/-- C6: `pixel_to_point` computes
`re = upper_left.re + column * (lower_right.re - upper_left.re) / width` and
`im = upper_left.im - row * (upper_left.im - lower_right.im) / height`, and
for a correctly oriented viewport the imaginary part strictly decreases as
the row increases (pixel rows grow downward, the imaginary axis upward). -/
theorem pixel_to_point_formula_antitone (bounds : Nat × Nat) (col row row' : Nat)
    (ul lr : Complex) (hh : 0 < bounds.2) (horient : lr.im < ul.im)
    (hrow : row < row') :
    (pixel_to_point bounds (col, row) ul lr).re
        = ul.re + (col : ℚ) * (lr.re - ul.re) / (bounds.1 : ℚ) ∧
    (pixel_to_point bounds (col, row) ul lr).im
        = ul.im - (row : ℚ) * (ul.im - lr.im) / (bounds.2 : ℚ) ∧
    (pixel_to_point bounds (col, row') ul lr).im
        < (pixel_to_point bounds (col, row) ul lr).im := by
  refine ⟨rfl, rfl, ?_⟩
  have hH : (0 : ℚ) < (ul.im - lr.im) / (bounds.2 : ℚ) :=
    div_pos (sub_pos.mpr horient) (by exact_mod_cast hh)
  have hmul : (row : ℚ) * ((ul.im - lr.im) / (bounds.2 : ℚ))
      < (row' : ℚ) * ((ul.im - lr.im) / (bounds.2 : ℚ)) :=
    mul_lt_mul_of_pos_right (by exact_mod_cast hrow) hH
  show ul.im - (row' : ℚ) * (ul.im - lr.im) / (bounds.2 : ℚ)
      < ul.im - (row : ℚ) * (ul.im - lr.im) / (bounds.2 : ℚ)
  rw [mul_div_assoc, mul_div_assoc]
  exact sub_lt_sub_left hmul ul.im

/-- Witness for C6 at `bounds = (1, 2)`, rows 0 < 1, viewport `1i` down to `1`. -/
theorem pixel_to_point_formula_antitone_witness :
    0 < (2 : Nat) ∧ (Complex.mk 1 0).im < (Complex.mk 0 1).im ∧ 0 < 1 ∧
      (pixel_to_point (1, 2) (0, 1) ⟨0, 1⟩ ⟨1, 0⟩).im
        < (pixel_to_point (1, 2) (0, 0) ⟨0, 1⟩ ⟨1, 0⟩).im := by
  have h := pixel_to_point_formula_antitone (1, 2) 0 0 1 ⟨0, 1⟩ ⟨1, 0⟩
    (by decide) (by simp) (by decide)
  exact ⟨by decide, by simp, by decide, h.2.2⟩

/-- C7: with positive bounds, `pixel_to_point` maps pixel `(0, 0)` exactly to
`upper_left` and pixel `(width, height)` exactly to `lower_right` (exact over
exact rational arithmetic). -/
theorem pixel_to_point_corners (bounds : Nat × Nat) (ul lr : Complex)
    (hw : 0 < bounds.1) (hh : 0 < bounds.2) :
    pixel_to_point bounds (0, 0) ul lr = ul ∧
    pixel_to_point bounds (bounds.1, bounds.2) ul lr = lr := by
  have hw' : ((bounds.1 : ℚ)) ≠ 0 := by
    exact_mod_cast Nat.pos_iff_ne_zero.mp hw
  have hh' : ((bounds.2 : ℚ)) ≠ 0 := by
    exact_mod_cast Nat.pos_iff_ne_zero.mp hh
  constructor
  · apply Complex.ext
    · show ul.re + ((0 : Nat) : ℚ) * (lr.re - ul.re) / (bounds.1 : ℚ) = ul.re
      simp
    · show ul.im - ((0 : Nat) : ℚ) * (ul.im - lr.im) / (bounds.2 : ℚ) = ul.im
      simp
  · apply Complex.ext
    · show ul.re + (bounds.1 : ℚ) * (lr.re - ul.re) / (bounds.1 : ℚ) = lr.re
      rw [mul_div_cancel_left₀ _ hw']
      ring
    · show ul.im - (bounds.2 : ℚ) * (ul.im - lr.im) / (bounds.2 : ℚ) = lr.im
      rw [mul_div_cancel_left₀ _ hh']
      ring

/-- Witness for C7 at `bounds = (1, 1)`, viewport from `1i` to `1`. -/
theorem pixel_to_point_corners_witness :
    0 < (1 : Nat) ∧ 0 < (1 : Nat) ∧
      pixel_to_point (1, 1) (0, 0) ⟨0, 1⟩ ⟨1, 0⟩ = ⟨0, 1⟩ ∧
      pixel_to_point (1, 1) (1, 1) ⟨0, 1⟩ ⟨1, 0⟩ = ⟨1, 0⟩ := by
  have h := pixel_to_point_corners (1, 1) ⟨0, 1⟩ ⟨1, 0⟩ (by decide) (by decide)
  exact ⟨by decide, by decide, h.1, h.2⟩

end Mandelbrot

namespace Quickreplace

/-- C10: whenever the replace step succeeds, the content `main` writes to the
output file is the original input text `data`, unchanged and independent of
the target and replacement arguments (`main` binds the replacement result but
writes `data`). -/
theorem mainFlow_writes_original
    (replaceFn : String → String → String → Option String)
    (target replacement data out : String)
    (h : mainFlow replaceFn target replacement data = some out) :
    out = data ∧ ∀ target' replacement',
      (mainFlow replaceFn target' replacement' data).isSome →
        mainFlow replaceFn target' replacement' data = some data := by
  constructor
  · unfold mainFlow at h
    cases hr : replaceFn target replacement data with
    | none => rw [hr] at h; exact absurd h (by simp)
    | some v => rw [hr] at h; simpa using h.symm
  · intro t' r' hsome
    unfold mainFlow at hsome ⊢
    cases hr : replaceFn t' r' data with
    | none => rw [hr] at hsome; simp at hsome
    | some v => rfl

/-- Witness for C10 with a replace function that succeeds. -/
theorem mainFlow_writes_original_witness :
    mainFlow (fun _ _ s => some s) "a" "b" "hello" = some "hello" ∧
      "hello" = "hello" :=
  ⟨rfl, (mainFlow_writes_original (fun _ _ s => some s) "a" "b" "hello" "hello" rfl).1⟩

end Quickreplace

namespace Mandelbrot

/-! ### Claims C2, C8: the partitioning invariants -/

/-- C2: with `rows_per_band = height / threads + 1`, splitting the
`width * height` buffer into chunks of `rows_per_band * width` entries gives
bands whose lengths are exact multiples of `width` (no row is split), whose
row ranges `[rows_per_band * i, rows_per_band * i + len_i / width)` stay
inside `[0, height)`, and which cover every row `r < height` exactly once. -/
theorem band_row_partition (w h threads : Nat) (pixels : List Nat)
    (hw : 0 < w) (hh : 0 < h) (ht : 0 < threads) (hlen : pixels.length = w * h) :
    (∀ i < (chunksMut ((h / threads + 1) * w) pixels).length,
        w ∣ ((chunksMut ((h / threads + 1) * w) pixels).getD i []).length) ∧
    (∀ i < (chunksMut ((h / threads + 1) * w) pixels).length,
        (h / threads + 1) * i
          + ((chunksMut ((h / threads + 1) * w) pixels).getD i []).length / w ≤ h) ∧
    (∀ r < h, ∃! i : Nat,
        i < (chunksMut ((h / threads + 1) * w) pixels).length ∧
        (h / threads + 1) * i ≤ r ∧
        r < (h / threads + 1) * i
          + ((chunksMut ((h / threads + 1) * w) pixels).getD i []).length / w) := by
  have hrpb : 0 < h / threads + 1 := Nat.succ_pos _
  have hk : 0 < (h / threads + 1) * w := Nat.mul_pos hrpb hw
  have hbl := band_length w h (h / threads + 1) hw hrpb pixels hlen
  have hbh : ∀ i, ((chunksMut ((h / threads + 1) * w) pixels).getD i []).length / w
      = min (h / threads + 1) (h - (h / threads + 1) * i) := by
    intro i
    rw [hbl i, Nat.mul_div_cancel_left _ hw]
  have htop := band_top_lt w h (h / threads + 1) hw hrpb pixels hlen
  have hnum : (chunksMut ((h / threads + 1) * w) pixels).length
      = (w * h + (h / threads + 1) * w - 1) / ((h / threads + 1) * w) := by
    rw [length_chunksMut _ hk, hlen]
  refine ⟨?_, ?_, ?_⟩
  · intro i _
    rw [hbl i]
    exact Dvd.intro _ rfl
  · intro i hi
    rw [hbh i]
    have h1 := htop i hi
    have h2 : min (h / threads + 1) (h - (h / threads + 1) * i)
        ≤ h - (h / threads + 1) * i := min_le_right _ _
    omega
  · intro r hr
    have hq1 : (h / threads + 1) * (r / (h / threads + 1)) + r % (h / threads + 1) = r :=
      Nat.div_add_mod r (h / threads + 1)
    have hq2 : r % (h / threads + 1) < h / threads + 1 := Nat.mod_lt _ hrpb
    refine ⟨r / (h / threads + 1), ⟨?_, by omega, ?_⟩, ?_⟩
    · have hmul : (r / (h / threads + 1) + 1) * ((h / threads + 1) * w)
          = w * ((h / threads + 1) * (r / (h / threads + 1))) + (h / threads + 1) * w := by
        ring
      have hlt : w * ((h / threads + 1) * (r / (h / threads + 1))) < w * h :=
        (Nat.mul_lt_mul_left hw).mpr (by omega)
      have hle : r / (h / threads + 1) + 1
          ≤ (w * h + (h / threads + 1) * w - 1) / ((h / threads + 1) * w) :=
        (Nat.le_div_iff_mul_le hk).mpr (by omega)
      rw [hnum]
      omega
    · rw [hbh]
      omega
    · rintro j ⟨hj1, hj2, hj3⟩
      rw [hbh j] at hj3
      have hj4 : r < (h / threads + 1) * j + (h / threads + 1) := by
        have := min_le_left (h / threads + 1) (h - (h / threads + 1) * j)
        omega
      have hdiv : r / (h / threads + 1) = j :=
        Nat.div_eq_of_lt_le
          (by rw [Nat.mul_comm]; exact hj2)
          (by have : (j + 1) * (h / threads + 1)
                = (h / threads + 1) * j + (h / threads + 1) := by ring
              omega)
      exact hdiv.symm

/-- Witness for C2 at `w = 2`, `h = 3`, `threads = 2`, a 6-byte buffer. -/
theorem band_row_partition_witness :
    0 < 2 ∧ 0 < 3 ∧ (List.replicate 6 0).length = 2 * 3 ∧
      (∀ r < 3, ∃! i : Nat,
        i < (chunksMut ((3 / 2 + 1) * 2) (List.replicate 6 0)).length ∧
        (3 / 2 + 1) * i ≤ r ∧
        r < (3 / 2 + 1) * i
          + ((chunksMut ((3 / 2 + 1) * 2) (List.replicate 6 0)).getD i []).length / 2) :=
  ⟨by decide, by decide, by decide,
    (band_row_partition 2 3 2 (List.replicate 6 0)
      (by decide) (by decide) (by decide) (by decide)).2.2⟩

/-- C8: the chunking with `rows_per_band = height / threads + 1` produces at
most `threads` bands, never more; it can produce strictly fewer (at
`threads = 8`, `width = 1`, `height = 8` it produces 4 bands). -/
theorem at_most_threads_bands (w h threads : Nat)
    (hw : 0 < w) (hh : 0 < h) (ht : 0 < threads) :
    numBands threads (w, h) ≤ threads ∧ numBands 8 (1, 8) < 8 := by
  constructor
  · have hrpb : 0 < h / threads + 1 := Nat.succ_pos _
    have hk : 0 < (h / threads + 1) * w := Nat.mul_pos hrpb hw
    show (chunksMut ((h / threads + 1) * w) (List.replicate (w * h) 0)).length ≤ threads
    rw [length_chunksMut _ hk, List.length_replicate,
      Nat.div_le_iff_le_mul_add_pred hk]
    have hq1 : threads * (h / threads) + h % threads = h := Nat.div_add_mod h threads
    have hq2 : h % threads < threads := Nat.mod_lt _ ht
    have h1 : h ≤ (h / threads + 1) * threads := by
      have e : (h / threads + 1) * threads = threads * (h / threads) + threads := by ring
      omega
    have h2 : w * h ≤ (h / threads + 1) * w * threads := by
      calc w * h ≤ w * ((h / threads + 1) * threads) := Nat.mul_le_mul (le_refl w) h1
        _ = (h / threads + 1) * w * threads := by ring
    omega
  · decide

/-- Witness for C8 at `w = 2`, `h = 3`, `threads = 8`. -/
theorem at_most_threads_bands_witness :
    0 < 2 ∧ 0 < 3 ∧ 0 < 8 ∧ numBands 8 (2, 3) ≤ 8 :=
  ⟨by decide, by decide, by decide,
    (at_most_threads_bands 2 3 8 (by decide) (by decide) (by decide)).1⟩

end Mandelbrot

namespace Mandelbrot

/-! ### Claim C5: the pixel bytes written by `render` -/

theorem flatMap_range'_getD (f : Nat → List Nat) (w : Nat) (hf : ∀ r, (f r).length = w) :
    ∀ (n s row col : Nat), row < n → col < w →
      ((List.range' s n).flatMap f).getD (row * w + col) 0 = (f (s + row)).getD col 0 := by
  intro n
  induction n with
  | zero => omega
  | succ n ih =>
    intro s row col hr hc
    rw [List.range'_succ, List.flatMap_cons]
    cases row with
    | zero =>
      rw [List.getD_eq_getElem?_getD, List.getD_eq_getElem?_getD]
      rw [Nat.zero_mul, Nat.zero_add]
      rw [List.getElem?_append_left (by rw [hf]; exact hc)]
      rw [Nat.add_zero]
    | succ row =>
      have hsm : (row + 1) * w = row * w + w := by ring
      rw [List.getD_eq_getElem?_getD,
        List.getElem?_append_right (by rw [hf]; omega)]
      rw [hf]
      have he : (row + 1) * w + col - w = row * w + col := by omega
      rw [he, ← List.getD_eq_getElem?_getD, ih (s + 1) row col (by omega) hc]
      have : s + 1 + row = s + (row + 1) := by omega
      rw [this]

theorem renderPure_getD (bounds : Nat × Nat) (ul lr : Complex) (row col : Nat)
    (hr : row < bounds.2) (hc : col < bounds.1) :
    (renderPure bounds ul lr).getD (row * bounds.1 + col) 0
      = pixelByte (pixel_to_point bounds (col, row) ul lr) := by
  rw [renderPure, List.range_eq_range']
  rw [flatMap_range'_getD _ bounds.1 (fun r => by simp) bounds.2 0 row col hr hc]
  rw [Nat.zero_add, List.getD_eq_getElem?_getD, List.getElem?_map, List.getElem?_range hc]
  rfl

/-- C5: under the asserted precondition `pixels.len() = width * height`,
`render` succeeds and the byte at `row * width + column` is `0` when
`escape_time` of the mapped point (limit 255) is `None`, and `255 - count`
when it is `Some count`; `count < 255`, so the stored byte of an escaped
pixel lies in `1..=255` (no underflow). -/
theorem render_writes (pixels : List Nat) (w h : Nat) (ul lr : Complex) (row col : Nat)
    (hlen : pixels.length = w * h) (hr : row < h) (hc : col < w) :
    render pixels (w, h) ul lr = some (renderPure (w, h) ul lr) ∧
    (escape_time (pixel_to_point (w, h) (col, row) ul lr) 255 = none →
      (renderPure (w, h) ul lr).getD (row * w + col) 0 = 0) ∧
    (∀ count, escape_time (pixel_to_point (w, h) (col, row) ul lr) 255 = some count →
      count < 255 ∧
      (renderPure (w, h) ul lr).getD (row * w + col) 0 = 255 - count ∧
      1 ≤ (renderPure (w, h) ul lr).getD (row * w + col) 0 ∧
      (renderPure (w, h) ul lr).getD (row * w + col) 0 ≤ 255) := by
  have hidx : (renderPure (w, h) ul lr).getD (row * w + col) 0
      = pixelByte (pixel_to_point (w, h) (col, row) ul lr) :=
    renderPure_getD (w, h) ul lr row col hr hc
  refine ⟨by rw [render, if_pos hlen], ?_, ?_⟩
  · intro hnone
    rw [hidx, pixelByte, hnone]
  · intro count hsome
    have hlt : count < 255 := escape_time_lt_limit hsome
    have hval : (renderPure (w, h) ul lr).getD (row * w + col) 0 = 255 - count := by
      rw [hidx, pixelByte, hsome]
    exact ⟨hlt, hval, by omega, by omega⟩

/-- Witness for C5 at a 1×1 image. -/
theorem render_writes_witness :
    (List.replicate 1 0).length = 1 * 1 ∧ 0 < 1 ∧ 0 < 1 ∧
      render (List.replicate 1 0) (1, 1) ⟨0, 1⟩ ⟨1, 0⟩
        = some (renderPure (1, 1) ⟨0, 1⟩ ⟨1, 0⟩) :=
  ⟨by decide, by decide, by decide,
    (render_writes (List.replicate 1 0) 1 1 ⟨0, 1⟩ ⟨1, 0⟩ 0 0
      (by decide) (by decide) (by decide)).1⟩

end Mandelbrot

namespace Mandelbrot

/-! ### Lemmas about `writeAt` -/

theorem length_writeAt (buf chunk : List Nat) (off : Nat) :
    (writeAt buf off chunk).length = buf.length := by
  simp [writeAt]

theorem getElem?_writeAt (buf chunk : List Nat) (off i : Nat) :
    (writeAt buf off chunk)[i]?
      = (buf[i]?).map fun b =>
          if off ≤ i ∧ i < off + chunk.length then chunk.getD (i - off) 0 else b := by
  simp [writeAt]

theorem writeAt_nil (buf : List Nat) (off : Nat) : writeAt buf off [] = buf := by
  apply List.ext_getElem?
  intro i
  rw [getElem?_writeAt]
  cases buf[i]? with
  | none => rfl
  | some b => simp

theorem writeAt_comm (buf c1 c2 : List Nat) (o1 o2 : Nat)
    (hdisj : o1 + c1.length ≤ o2 ∨ o2 + c2.length ≤ o1) :
    writeAt (writeAt buf o1 c1) o2 c2 = writeAt (writeAt buf o2 c2) o1 c1 := by
  apply List.ext_getElem?
  intro i
  simp only [getElem?_writeAt]
  cases buf[i]? with
  | none => rfl
  | some b =>
    simp only [Option.map_some']
    by_cases h1 : o1 ≤ i ∧ i < o1 + c1.length <;>
      by_cases h2 : o2 ≤ i ∧ i < o2 + c2.length <;>
      simp [h1, h2]
    omega

theorem writeAt_append (buf c1 c2 : List Nat) (off : Nat) :
    writeAt (writeAt buf off c1) (off + c1.length) c2 = writeAt buf off (c1 ++ c2) := by
  apply List.ext_getElem?
  intro i
  simp only [getElem?_writeAt]
  cases buf[i]? with
  | none => rfl
  | some b =>
    simp only [Option.map_some', Option.some_inj, List.length_append]
    by_cases h1 : off ≤ i ∧ i < off + c1.length
    · rw [if_neg (by omega), if_pos h1, if_pos (by omega)]
      rw [List.getD_eq_getElem?_getD, List.getD_eq_getElem?_getD,
        List.getElem?_append_left (by omega)]
    · by_cases h2 : off + c1.length ≤ i ∧ i < off + c1.length + c2.length
      · rw [if_pos h2, if_pos (by omega)]
        rw [List.getD_eq_getElem?_getD, List.getD_eq_getElem?_getD,
          List.getElem?_append_right (by omega)]
        have he : i - off - c1.length = i - (off + c1.length) := by omega
        rw [he]
      · rw [if_neg h2, if_neg h1, if_neg (by omega)]

theorem writeAt_full (buf c : List Nat) (hlen : c.length = buf.length) :
    writeAt buf 0 c = c := by
  apply List.ext_getElem?
  intro i
  rw [getElem?_writeAt]
  by_cases hi : i < buf.length
  · rw [List.getElem?_eq_getElem hi, List.getElem?_eq_getElem (by omega : i < c.length)]
    simp only [Option.map_some', Option.some_inj]
    rw [if_pos (by omega)]
    rw [Nat.sub_zero, List.getD_eq_getElem?_getD, List.getElem?_eq_getElem (by omega)]
    rfl
  · rw [List.getElem?_eq_none (by omega), List.getElem?_eq_none (by omega)]
    rfl

/-! ### Permutation invariance of right-commutative folds -/

theorem foldl_right_comm_perm {f : List Nat → Nat → List Nat}
    (hcomm : ∀ (b : List Nat) (x y : Nat), f (f b x) y = f (f b y) x) :
    ∀ {l1 l2 : List Nat}, l1.Perm l2 → ∀ b, l1.foldl f b = l2.foldl f b := by
  intro l1 l2 hp
  induction hp with
  | nil => intro b; rfl
  | cons x p ih => intro b; simp only [List.foldl_cons]; exact ih _
  | swap x y l => intro b; simp only [List.foldl_cons]; rw [hcomm]
  | trans p1 p2 ih1 ih2 => intro b; rw [ih1, ih2]

end Mandelbrot

namespace Mandelbrot

/-! ### The band corners tile the full pixel-to-point mapping exactly -/

/-- A band whose corners are computed by `pixel_to_point` against the full
image bounds and full viewport maps its local pixel `(c, r)` to exactly the
point the full image maps pixel `(c, top + r)` to. -/
theorem band_point_eq (w h bh top c r : Nat) (ul lr : Complex)
    (hw : 0 < w) (hh : 0 < h) (hbh : 0 < bh) :
    pixel_to_point (w, bh) (c, r)
        (pixel_to_point (w, h) (0, top) ul lr)
        (pixel_to_point (w, h) (w, top + bh) ul lr)
      = pixel_to_point (w, h) (c, top + r) ul lr := by
  have hw' : ((w : ℚ)) ≠ 0 := Nat.cast_ne_zero.mpr (by omega)
  have hh' : ((h : ℚ)) ≠ 0 := Nat.cast_ne_zero.mpr (by omega)
  have hbh' : ((bh : ℚ)) ≠ 0 := Nat.cast_ne_zero.mpr (by omega)
  apply Complex.ext
  · show (ul.re + ((0 : Nat) : ℚ) * (lr.re - ul.re) / (w : ℚ))
        + (c : ℚ) * ((ul.re + (w : ℚ) * (lr.re - ul.re) / (w : ℚ))
            - (ul.re + ((0 : Nat) : ℚ) * (lr.re - ul.re) / (w : ℚ))) / (w : ℚ)
        = ul.re + (c : ℚ) * (lr.re - ul.re) / (w : ℚ)
    push_cast
    field_simp
  · show (ul.im - ((top : Nat) : ℚ) * (ul.im - lr.im) / (h : ℚ))
        - (r : ℚ) * ((ul.im - ((top : Nat) : ℚ) * (ul.im - lr.im) / (h : ℚ))
            - (ul.im - (((top + bh : Nat)) : ℚ) * (ul.im - lr.im) / (h : ℚ))) / (bh : ℚ)
        = ul.im - (((top + r : Nat)) : ℚ) * (ul.im - lr.im) / (h : ℚ)
    push_cast
    field_simp
    ring

theorem flatMap_congr {α β : Type} (l : List α) (f g : α → List β)
    (h : ∀ a ∈ l, f a = g a) : l.flatMap f = l.flatMap g := by
  induction l with
  | nil => rfl
  | cons a l ih =>
    rw [List.flatMap_cons, List.flatMap_cons, h a (by simp), ih]
    intro a ha
    exact h a (by simp [ha])

/-- A band render with corners taken from the full image equals the rows
`[top, top + bh)` of the full render. -/
theorem renderPure_band (w h bh top : Nat) (ul lr : Complex)
    (hw : 0 < w) (hh : 0 < h) :
    renderPure (w, bh)
        (pixel_to_point (w, h) (0, top) ul lr)
        (pixel_to_point (w, h) (w, top + bh) ul lr)
      = (List.range' top bh).flatMap fun row =>
          (List.range w).map fun col =>
            pixelByte (pixel_to_point (w, h) (col, row) ul lr) := by
  rcases Nat.eq_zero_or_pos bh with hbh | hbh
  · subst hbh
    simp [renderPure]
  · rw [renderPure, List.range'_eq_map_range, List.flatMap_map]
    apply flatMap_congr
    intro r _
    apply List.map_congr_left
    intro col _
    rw [band_point_eq w h bh top col r ul lr hw hh hbh]

theorem length_renderPure (a b : Nat) (ul lr : Complex) :
    (renderPure (a, b) ul lr).length = b * a := by
  rw [renderPure]
  rw [List.length_flatMap]
  have : (List.range b).map (List.length ∘ fun row =>
      (List.range a).map fun col =>
        pixelByte (pixel_to_point (a, b) (col, row) ul lr))
      = List.replicate b a := by
    rw [show (List.range b).map _ = (List.range b).map (fun _ => a) from
      List.map_congr_left (fun r _ => by simp)]
    rw [List.map_const', List.length_range]
  rw [this, List.sum_replicate, smul_eq_mul]

/-- The rendered bands of the split buffer, flattened in order, are exactly
the full rendered image rows `[rpb * j, rpb * j + m)`. -/
theorem bands_tile (w h rpb : Nat) (ul lr : Complex)
    (hw : 0 < w) (hh : 0 < h) (hrpb : 0 < rpb) :
    ∀ (n : Nat) (l : List Nat) (j m : Nat), l.length = w * m → m = n →
      (((chunksMut (rpb * w) l).enumFrom j).map fun p =>
          renderPure (w, p.2.length / w)
            (pixel_to_point (w, h) (0, rpb * p.1) ul lr)
            (pixel_to_point (w, h) (w, rpb * p.1 + p.2.length / w) ul lr)).flatten
      = (List.range' (rpb * j) m).flatMap fun row =>
          (List.range w).map fun col =>
            pixelByte (pixel_to_point (w, h) (col, row) ul lr) := by
  intro n
  induction n using Nat.strong_induction_on with
  | _ n ih =>
  intro l j m hl hm
  have hk : 0 < rpb * w := Nat.mul_pos hrpb hw
  by_cases hnil : l = []
  · subst hnil
    have hm0 : m = 0 := by
      have := hl.symm
      simp at this
      omega
    subst hm0
    rw [chunksMut_nil]
    rfl
  · have hmpos : 0 < m := by
      rcases Nat.eq_zero_or_pos m with h0 | h0
      · rw [h0, Nat.mul_zero] at hl
        exact absurd (List.eq_nil_of_length_eq_zero hl) hnil
      · exact h0
    rw [chunksMut_cons _ hk l hnil, List.enumFrom_cons, List.map_cons, List.flatten_cons]
    have hlen0 : (l.take (rpb * w)).length = w * min rpb m := by
      rw [List.length_take, hl]
      rcases Nat.le_total rpb m with hab | hab
      · rw [min_eq_left hab, min_eq_left]
        · ring
        · calc rpb * w = w * rpb := by ring
            _ ≤ w * m := Nat.mul_le_mul (le_refl w) hab
      · rw [min_eq_right hab, min_eq_right]
        calc w * m ≤ w * rpb := Nat.mul_le_mul (le_refl w) hab
          _ = rpb * w := by ring
    have hbh0 : (l.take (rpb * w)).length / w = min rpb m := by
      rw [hlen0, Nat.mul_div_cancel_left _ hw]
    have hdroplen : (l.drop (rpb * w)).length = w * (m - rpb) := by
      rw [List.length_drop, hl]
      rw [Nat.mul_sub_left_distrib]
      congr 1
      ring
    have hrec := ih (m - rpb) (by omega) (l.drop (rpb * w)) (j + 1) (m - rpb) hdroplen rfl
    rw [hrec, hbh0]
    have hfst : ((j, l.take (rpb * w)).1) = j := rfl
    rw [hfst]
    rw [renderPure_band w h (min rpb m) (rpb * j) ul lr hw hh]
    rcases Nat.le_total m rpb with hle | hle
    · have hmin : min rpb m = m := min_eq_right hle
      have hm' : m - rpb = 0 := by omega
      rw [hmin, hm', List.range'_zero, List.flatMap_nil, List.append_nil]
    · have hmin : min rpb m = rpb := min_eq_left hle
      rw [hmin]
      have hsplit : List.range' (rpb * j) m
          = List.range' (rpb * j) rpb ++ List.range' (rpb * j + rpb) (m - rpb) := by
        rw [List.range'_append_1]
        congr 1
        omega
      have hj1 : rpb * (j + 1) = rpb * j + rpb := by ring
      rw [hsplit, List.flatMap_append, hj1]

end Mandelbrot

namespace Mandelbrot

/-! ### Sequencing the workers and writing the bands back -/

theorem seqOpt_cons (o : Option (List Nat)) (os : List (Option (List Nat))) :
    seqOpt (o :: os)
      = match o, seqOpt os with
        | some x, some xs => some (x :: xs)
        | _, _ => none := rfl

theorem seqOpt_map_some {α : Type} (l : List α) (f : α → Option (List Nat))
    (g : α → List Nat) (h : ∀ x ∈ l, f x = some (g x)) :
    seqOpt (l.map f) = some (l.map g) := by
  induction l with
  | nil => rfl
  | cons a l ih =>
    rw [List.map_cons, List.map_cons, seqOpt_cons, h a (by simp),
      ih (fun x hx => h x (by simp [hx]))]

theorem mem_enumFrom_eq {α : Type} (d : α) :
    ∀ (cs : List α) (j : Nat) (p : Nat × α), p ∈ cs.enumFrom j →
      j ≤ p.1 ∧ p.1 < j + cs.length ∧ p.2 = cs.getD (p.1 - j) d := by
  intro cs
  induction cs with
  | nil => intro j p hp; simp at hp
  | cons c0 cs ih =>
    intro j p hp
    rw [List.enumFrom_cons, List.mem_cons] at hp
    rcases hp with hp | hp
    · subst hp
      refine ⟨le_refl _, by simp, ?_⟩
      simp
    · obtain ⟨h1, h2, h3⟩ := ih (j + 1) p hp
      refine ⟨by omega, by simp; omega, ?_⟩
      rw [h3]
      have he : p.1 - j = (p.1 - (j + 1)) + 1 := by omega
      rw [he, List.getD_cons_succ]

/-- Folding the bands' writes, in band order, over a buffer that starts at
byte `k * j` reconstructs the flattened band outputs in place. -/
theorem foldl_writeAt_chunks (k : Nat) (hk : 0 < k) (gp : Nat × List Nat → List Nat) :
    ∀ (n : Nat) (l : List Nat) (j : Nat) (buf : List Nat), l.length = n →
      buf.length = k * j + l.length →
      (∀ p ∈ (chunksMut k l).enumFrom j, (gp p).length = p.2.length) →
      (((chunksMut k l).enumFrom j).map fun p => (k * p.1, gp p)).foldl
          (fun b q => writeAt b q.1 q.2) buf
        = writeAt buf (k * j) ((((chunksMut k l).enumFrom j).map gp).flatten) := by
  intro n
  induction n using Nat.strong_induction_on with
  | _ n ih =>
  intro l j buf hn hbuf hg
  by_cases hnil : l = []
  · subst hnil
    rw [chunksMut_nil]
    show buf = writeAt buf (k * j) [].flatten
    rw [List.flatten_nil, writeAt_nil]
  · rw [chunksMut_cons _ hk l hnil] at hg ⊢
    rw [List.enumFrom_cons, List.map_cons, List.map_cons, List.foldl_cons, List.flatten_cons]
    have hg0 : (gp (j, l.take k)).length = (l.take k).length := by
      have := hg (j, l.take k) (by rw [List.enumFrom_cons]; simp)
      simpa using this
    have hgrest : ∀ p ∈ (chunksMut k (l.drop k)).enumFrom (j + 1),
        (gp p).length = p.2.length := by
      intro p hp
      exact hg p (by rw [List.enumFrom_cons]; exact List.mem_cons_of_mem _ hp)
    have hlpos : 0 < l.length := List.length_pos.mpr hnil
    by_cases hshort : l.length ≤ k
    · have hdrop : l.drop k = [] := List.drop_eq_nil_of_le hshort
      rw [hdrop, chunksMut_nil]
      show writeAt buf (k * j) (gp (j, l.take k))
          = writeAt buf (k * j) (gp (j, l.take k) ++ [].flatten)
      rw [List.flatten_nil, List.append_nil]
    · have hdroplen : (l.drop k).length = l.length - k := by simp
      have htakelen : (l.take k).length = k := by
        rw [List.length_take]
        omega
      have hrec := ih (l.length - k) (by omega) (l.drop k) (j + 1)
        (writeAt buf (k * j) (gp (j, l.take k))) (by omega)
        (by rw [length_writeAt, hbuf, Nat.mul_succ]; omega)
        hgrest
      rw [hrec]
      have hoff : k * (j + 1) = k * j + (gp (j, l.take k)).length := by
        rw [hg0, htakelen]
        ring
      rw [hoff, writeAt_append]

end Mandelbrot

namespace Mandelbrot

/-! ### Connecting the dispatch to the sequential render -/

theorem range'_getD_map_eq {β : Type} :
    ∀ (cs : List (List Nat)) (j : Nat) (F : Nat → List Nat → β),
      (List.range' j cs.length).map (fun i => F i (cs.getD (i - j) []))
        = (cs.enumFrom j).map fun p => F p.1 p.2 := by
  intro cs
  induction cs with
  | nil => intro j F; rfl
  | cons c cs ih =>
    intro j F
    rw [List.length_cons, List.range'_succ, List.map_cons, List.enumFrom_cons, List.map_cons]
    congr 1
    · rw [Nat.sub_self, List.getD_cons_zero]
    · rw [← ih (j + 1) F]
      apply List.map_congr_left
      intro i hi
      obtain ⟨m, hm, heq⟩ := List.mem_range'.mp hi
      have he : i - j = (i - (j + 1)) + 1 := by omega
      rw [he, List.getD_cons_succ]

theorem range_getD_map_eq {β : Type} (cs : List (List Nat)) (F : Nat → List Nat → β) :
    (List.range cs.length).map (fun i => F i (cs.getD i []))
      = (cs.enumFrom 0).map fun p => F p.1 p.2 := by
  rw [List.range_eq_range', ← range'_getD_map_eq cs 0 F]
  apply List.map_congr_left
  intro i _
  rw [Nat.sub_zero]

theorem enumFrom_write_pairs (k : Nat) (g : Nat × List Nat → List Nat) :
    ∀ (cs : List (List Nat)) (j : Nat),
      (((cs.enumFrom j).map g).enumFrom j).map (fun p => (k * p.1, p.2))
        = (cs.enumFrom j).map fun p => (k * p.1, g p) := by
  intro cs
  induction cs with
  | nil => intro j; rfl
  | cons c cs ih =>
    intro j
    simp only [List.enumFrom_cons, List.map_cons]
    rw [ih (j + 1)]

theorem foldl_over_range_writes (k : Nat) (B : Nat → List Nat) :
    ∀ (idxs : List Nat) (buf : List Nat),
      idxs.foldl (fun b i => writeAt b (k * i) (B i)) buf
        = (idxs.map fun i => (k * i, B i)).foldl (fun b q => writeAt b q.1 q.2) buf := by
  intro idxs
  induction idxs with
  | nil => intro buf; rfl
  | cons i idxs ih =>
    intro buf
    rw [List.foldl_cons, List.map_cons, List.foldl_cons, ih]

/-- Folding all the bands' writes over the zero buffer, in band order,
reproduces the sequential full render. -/
theorem writes_fold_renderPure (threads w h : Nat) (ul lr : Complex)
    (hw : 0 < w) (hh : 0 < h) :
    (((chunksMut ((h / threads + 1) * w) (List.replicate (w * h) 0)).enumFrom 0).map fun p =>
        ((h / threads + 1) * w * p.1,
          renderPure (w, p.2.length / w)
            (pixel_to_point (w, h) (0, (h / threads + 1) * p.1) ul lr)
            (pixel_to_point (w, h) (w, (h / threads + 1) * p.1 + p.2.length / w) ul lr))).foldl
        (fun b q => writeAt b q.1 q.2) (List.replicate (w * h) 0)
      = renderPure (w, h) ul lr := by
  have hrpb : 0 < h / threads + 1 := Nat.succ_pos _
  have hk : 0 < (h / threads + 1) * w := Nat.mul_pos hrpb hw
  have hlenmem : ∀ p ∈ (chunksMut ((h / threads + 1) * w)
        (List.replicate (w * h) 0)).enumFrom 0,
      (renderPure (w, p.2.length / w)
        (pixel_to_point (w, h) (0, (h / threads + 1) * p.1) ul lr)
        (pixel_to_point (w, h) (w, (h / threads + 1) * p.1 + p.2.length / w) ul lr)).length
      = p.2.length := by
    intro p hp
    obtain ⟨-, -, h3⟩ := mem_enumFrom_eq [] _ 0 p hp
    rw [Nat.sub_zero] at h3
    have hb := band_length w h (h / threads + 1) hw hrpb
      (List.replicate (w * h) 0) (by simp) p.1
    rw [length_renderPure, h3, hb, Nat.mul_div_cancel_left _ hw]
    ring
  rw [foldl_writeAt_chunks ((h / threads + 1) * w) hk _ (w * h)
    (List.replicate (w * h) 0) 0 (List.replicate (w * h) 0) (by simp) (by simp) hlenmem]
  rw [bands_tile w h (h / threads + 1) ul lr hw hh hrpb h
    (List.replicate (w * h) 0) 0 h (by simp) rfl]
  simp only [Nat.mul_zero]
  rw [← List.range_eq_range']
  have hR : renderPure (w, h) ul lr
      = (List.range h).flatMap fun row =>
          (List.range w).map fun col =>
            pixelByte (pixel_to_point (w, h) (col, row) ul lr) := rfl
  rw [← hR]
  exact writeAt_full _ _ (by rw [length_renderPure, List.length_replicate]; ring)

/-- The parallel dispatch always succeeds and produces the sequential
full render. -/
theorem parallelRender_some (threads w h : Nat) (ul lr : Complex)
    (hw : 0 < w) (hh : 0 < h) :
    parallelRender threads (w, h) ul lr = some (renderPure (w, h) ul lr) := by
  have hrpb : 0 < h / threads + 1 := Nat.succ_pos _
  have hbody : parallelRender threads (w, h) ul lr
      = (seqOpt (((chunksMut ((h / threads + 1) * w) (List.replicate (w * h) 0)).enumFrom 0).map
          fun p => render p.2 (w, p.2.length / w)
            (pixel_to_point (w, h) (0, (h / threads + 1) * p.1) ul lr)
            (pixel_to_point (w, h) (w, (h / threads + 1) * p.1 + p.2.length / w) ul lr))).map
        fun outs => ((outs.enumFrom 0).map fun p => ((h / threads + 1) * w * p.1, p.2)).foldl
          (fun b q => writeAt b q.1 q.2) (List.replicate (w * h) 0) := rfl
  have hdvd : ∀ p ∈ (chunksMut ((h / threads + 1) * w)
        (List.replicate (w * h) 0)).enumFrom 0,
      p.2.length = w * (p.2.length / w) := by
    intro p hp
    obtain ⟨-, -, h3⟩ := mem_enumFrom_eq [] _ 0 p hp
    rw [Nat.sub_zero] at h3
    have hb := band_length w h (h / threads + 1) hw hrpb
      (List.replicate (w * h) 0) (by simp) p.1
    rw [h3, hb, Nat.mul_div_cancel_left _ hw]
  have hren : ∀ p ∈ (chunksMut ((h / threads + 1) * w)
        (List.replicate (w * h) 0)).enumFrom 0,
      render p.2 (w, p.2.length / w)
          (pixel_to_point (w, h) (0, (h / threads + 1) * p.1) ul lr)
          (pixel_to_point (w, h) (w, (h / threads + 1) * p.1 + p.2.length / w) ul lr)
        = some (renderPure (w, p.2.length / w)
            (pixel_to_point (w, h) (0, (h / threads + 1) * p.1) ul lr)
            (pixel_to_point (w, h) (w, (h / threads + 1) * p.1 + p.2.length / w) ul lr)) := by
    intro p hp
    rw [render, if_pos (hdvd p hp)]
  have hseq := seqOpt_map_some
    ((chunksMut ((h / threads + 1) * w) (List.replicate (w * h) 0)).enumFrom 0)
    (fun p => render p.2 (w, p.2.length / w)
      (pixel_to_point (w, h) (0, (h / threads + 1) * p.1) ul lr)
      (pixel_to_point (w, h) (w, (h / threads + 1) * p.1 + p.2.length / w) ul lr))
    (fun p => renderPure (w, p.2.length / w)
      (pixel_to_point (w, h) (0, (h / threads + 1) * p.1) ul lr)
      (pixel_to_point (w, h) (w, (h / threads + 1) * p.1 + p.2.length / w) ul lr))
    hren
  rw [hbody, hseq, Option.map_some']
  rw [enumFrom_write_pairs ((h / threads + 1) * w)
    (fun p => renderPure (w, p.2.length / w)
      (pixel_to_point (w, h) (0, (h / threads + 1) * p.1) ul lr)
      (pixel_to_point (w, h) (w, (h / threads + 1) * p.1 + p.2.length / w) ul lr))
    (chunksMut ((h / threads + 1) * w) (List.replicate (w * h) 0)) 0]
  show some ((((chunksMut ((h / threads + 1) * w)
      (List.replicate (w * h) 0)).enumFrom 0).map fun p =>
        ((h / threads + 1) * w * p.1,
          renderPure (w, p.2.length / w)
            (pixel_to_point (w, h) (0, (h / threads + 1) * p.1) ul lr)
            (pixel_to_point (w, h) (w, (h / threads + 1) * p.1 + p.2.length / w) ul lr))).foldl
        (fun b q => writeAt b q.1 q.2) (List.replicate (w * h) 0))
    = some (renderPure (w, h) ul lr)
  rw [writes_fold_renderPure threads w h ul lr hw hh]

/-- A scheduled run of the band writes in canonical band order reproduces
the sequential full render. -/
theorem scheduledRun_canonical (threads w h : Nat) (ul lr : Complex)
    (hw : 0 < w) (hh : 0 < h) :
    scheduledRun threads (w, h) ul lr (List.range (numBands threads (w, h)))
      = renderPure (w, h) ul lr := by
  have hbody : scheduledRun threads (w, h) ul lr (List.range (numBands threads (w, h)))
      = (List.range ((chunksMut ((h / threads + 1) * w)
            (List.replicate (w * h) 0)).length)).foldl
          (fun buf i => writeAt buf ((h / threads + 1) * w * i)
            (bandPixels threads (w, h) ul lr i))
          (List.replicate (w * h) 0) := rfl
  rw [hbody,
    foldl_over_range_writes ((h / threads + 1) * w) (bandPixels threads (w, h) ul lr)]
  have hB : (fun i => ((h / threads + 1) * w * i, bandPixels threads (w, h) ul lr i))
      = fun i => ((h / threads + 1) * w * i,
          renderPure (w, ((chunksMut ((h / threads + 1) * w)
              (List.replicate (w * h) 0)).getD i []).length / w)
            (pixel_to_point (w, h) (0, (h / threads + 1) * i) ul lr)
            (pixel_to_point (w, h) (w, (h / threads + 1) * i
              + ((chunksMut ((h / threads + 1) * w)
                  (List.replicate (w * h) 0)).getD i []).length / w) ul lr)) := rfl
  rw [hB]
  have hconv := range_getD_map_eq
    (chunksMut ((h / threads + 1) * w) (List.replicate (w * h) 0))
    (fun i c => ((h / threads + 1) * w * i,
      renderPure (w, c.length / w)
        (pixel_to_point (w, h) (0, (h / threads + 1) * i) ul lr)
        (pixel_to_point (w, h) (w, (h / threads + 1) * i + c.length / w) ul lr)))
  rw [hconv]
  show (((chunksMut ((h / threads + 1) * w)
      (List.replicate (w * h) 0)).enumFrom 0).map fun p =>
        ((h / threads + 1) * w * p.1,
          renderPure (w, p.2.length / w)
            (pixel_to_point (w, h) (0, (h / threads + 1) * p.1) ul lr)
            (pixel_to_point (w, h) (w, (h / threads + 1) * p.1 + p.2.length / w) ul lr))).foldl
        (fun b q => writeAt b q.1 q.2) (List.replicate (w * h) 0)
    = renderPure (w, h) ul lr
  rw [writes_fold_renderPure threads w h ul lr hw hh]

end Mandelbrot

namespace Mandelbrot

/-- Writes of two distinct bands land in disjoint byte ranges, so they
commute on the shared buffer. -/
theorem scheduledRun_comm (threads w h : Nat) (ul lr : Complex) (hw : 0 < w) :
    ∀ (b : List Nat) (x y : Nat),
      writeAt (writeAt b ((h / threads + 1) * w * x) (bandPixels threads (w, h) ul lr x))
          ((h / threads + 1) * w * y) (bandPixels threads (w, h) ul lr y)
        = writeAt (writeAt b ((h / threads + 1) * w * y) (bandPixels threads (w, h) ul lr y))
            ((h / threads + 1) * w * x) (bandPixels threads (w, h) ul lr x) := by
  have hlen : ∀ i, (bandPixels threads (w, h) ul lr i).length ≤ (h / threads + 1) * w := by
    intro i
    have hb := band_length w h (h / threads + 1) hw (Nat.succ_pos _)
      (List.replicate (w * h) 0) (by simp) i
    have hBi : bandPixels threads (w, h) ul lr i
        = renderPure (w, ((chunksMut ((h / threads + 1) * w)
            (List.replicate (w * h) 0)).getD i []).length / w)
          (pixel_to_point (w, h) (0, (h / threads + 1) * i) ul lr)
          (pixel_to_point (w, h) (w, (h / threads + 1) * i
            + ((chunksMut ((h / threads + 1) * w)
                (List.replicate (w * h) 0)).getD i []).length / w) ul lr) := rfl
    rw [hBi, length_renderPure, hb, Nat.mul_div_cancel_left _ hw]
    exact Nat.mul_le_mul (min_le_left _ _) (le_refl w)
  intro b x y
  by_cases hxy : x = y
  · subst hxy
    rfl
  · apply writeAt_comm
    rcases Nat.lt_or_ge x y with hlt | hge
    · left
      have h1 := hlen x
      have h2 : (h / threads + 1) * w * (x + 1) ≤ (h / threads + 1) * w * y :=
        Nat.mul_le_mul (le_refl _) (by omega)
      have h3 : (h / threads + 1) * w * (x + 1)
          = (h / threads + 1) * w * x + (h / threads + 1) * w := by ring
      omega
    · right
      have h1 := hlen y
      have h2 : (h / threads + 1) * w * (y + 1) ≤ (h / threads + 1) * w * x :=
        Nat.mul_le_mul (le_refl _) (by omega)
      have h3 : (h / threads + 1) * w * (y + 1)
          = (h / threads + 1) * w * y + (h / threads + 1) * w := by ring
      omega

/-! ### Claims C1, C9: the parallel dispatch -/

/-- C1: with positive bounds, the parallel dispatch — chunks of
`rows_per_band * width` bytes, `rows_per_band = height/threads + 1`, each
band's corners computed by `pixel_to_point` against the full bounds and full
viewport, each band rendered by `render` — produces a pixel buffer
byte-identical to running `render` once on the whole buffer, for every
thread count; in particular concurrency 1 and concurrency 8 agree. -/
theorem parallel_dispatch_matches_render (w h threads : Nat) (ul lr : Complex)
    (hw : 0 < w) (hh : 0 < h) (ht : 0 < threads) :
    parallelRender threads (w, h) ul lr
        = render (List.replicate (w * h) 0) (w, h) ul lr ∧
    parallelRender 1 (w, h) ul lr = parallelRender 8 (w, h) ul lr := by
  have hfull : render (List.replicate (w * h) 0) (w, h) ul lr
      = some (renderPure (w, h) ul lr) := by
    unfold render
    rw [if_pos (show (List.replicate (w * h) (0 : Nat)).length = (w, h).1 * (w, h).2 by simp)]
  constructor
  · rw [parallelRender_some threads w h ul lr hw hh, hfull]
  · rw [parallelRender_some 1 w h ul lr hw hh, parallelRender_some 8 w h ul lr hw hh]

/-- Witness for C1 at a 2×3 image with 8 threads. -/
theorem parallel_dispatch_matches_render_witness :
    0 < 2 ∧ 0 < 3 ∧ 0 < 8 ∧
      parallelRender 8 (2, 3) ⟨0, 1⟩ ⟨1, 0⟩
        = render (List.replicate (2 * 3) 0) (2, 3) ⟨0, 1⟩ ⟨1, 0⟩ :=
  ⟨by decide, by decide, by decide,
    (parallel_dispatch_matches_render 2 3 8 ⟨0, 1⟩ ⟨1, 0⟩
      (by decide) (by decide) (by decide)).1⟩

/-- C9: rendering is deterministic.  A scheduled run of the band writes under
any schedule (any permutation of the band indices) produces the same buffer
as any other schedule, namely the sequential full render: the output is a
pure function of the inputs with no nondeterminism from scheduling. -/
theorem render_deterministic (w h threads : Nat) (ul lr : Complex)
    (order1 order2 : List Nat) (hw : 0 < w) (hh : 0 < h) (ht : 0 < threads)
    (h1 : order1.Perm (List.range (numBands threads (w, h))))
    (h2 : order2.Perm (List.range (numBands threads (w, h)))) :
    scheduledRun threads (w, h) ul lr order1 = scheduledRun threads (w, h) ul lr order2 ∧
    scheduledRun threads (w, h) ul lr order1 = renderPure (w, h) ul lr := by
  have hcomm := scheduledRun_comm threads w h ul lr hw
  have hsr : ∀ order : List Nat, scheduledRun threads (w, h) ul lr order
      = order.foldl (fun buf i => writeAt buf ((h / threads + 1) * w * i)
          (bandPixels threads (w, h) ul lr i)) (List.replicate (w * h) 0) := fun _ => rfl
  have e1 : scheduledRun threads (w, h) ul lr order1 = renderPure (w, h) ul lr := by
    rw [hsr order1, foldl_right_comm_perm hcomm h1,
      ← hsr (List.range (numBands threads (w, h)))]
    exact scheduledRun_canonical threads w h ul lr hw hh
  have e2 : scheduledRun threads (w, h) ul lr order2 = renderPure (w, h) ul lr := by
    rw [hsr order2, foldl_right_comm_perm hcomm h2,
      ← hsr (List.range (numBands threads (w, h)))]
    exact scheduledRun_canonical threads w h ul lr hw hh
  exact ⟨e1.trans e2.symm, e1⟩

/-- Witness for C9 at a 1×1 image with 8 threads. -/
theorem render_deterministic_witness :
    0 < 1 ∧ 0 < 8 ∧ ([0] : List Nat).Perm (List.range (numBands 8 (1, 1))) ∧
      scheduledRun 8 (1, 1) ⟨0, 1⟩ ⟨1, 0⟩ [0] = renderPure (1, 1) ⟨0, 1⟩ ⟨1, 0⟩ :=
  ⟨by decide, by decide, by decide,
    (render_deterministic 1 1 8 ⟨0, 1⟩ ⟨1, 0⟩ [0] [0]
      (by decide) (by decide) (by decide) (by decide) (by decide)).2⟩

end Mandelbrot
